import Mathlib

/-!
Verification development for the watermark-detection pipeline of
`src/utils.py` (function `detect_watermark` and its helpers).

The embedding is shallow:
* Python floats (OCR confidences, the padding ratio) are modelled as exact
  rationals `ℚ`;
* Python `dict`s (which preserve insertion order) are modelled as
  association lists `List (κ × ν)` with lookup `alGet` and insert-or-update
  `alSet` (update keeps the key's position, a fresh key is appended — the
  same key-order discipline as a Python dict);
* Python `str.strip()` is modelled by `pyStrip`, dropping leading and
  trailing whitespace characters (the ASCII whitespace set suffices for
  every statement below; none of the proofs depends on the exact set);
* Python `int(x)` on a non-negative number is `⌊x⌋`; on a negative number it
  truncates toward zero, modelled by `pyInt`;
* Python `sorted` / `list.sort` are stable; `List.insertionSort` with the
  matching reflexive relation produces the identical (stable) result.

Each definition mirrors one piece of the source; line numbers refer to
`src/utils.py`.
-/

/- Batteries marks rational arithmetic `@[irreducible]`, which prevents the
kernel-level evaluation used by `decide` on the concrete test inputs below.
Restoring the default reducibility changes nothing logically. -/
set_option allowUnsafeReducibility true
attribute [local semireducible] Rat.mul Rat.add Rat.sub Rat.inv

/-- Whitespace test used by the model of Python `str.strip()` (ASCII subset
of Python's whitespace set; the larger Unicode set would change nothing in
the statements proved here). -/
def isPySpace (c : Char) : Bool :=
  c = ' ' || c = '\t' || c = '\n' || c = '\x0d' || c = '\x0b' || c = '\x0c'

/-- Drop leading and trailing whitespace from a character list:
the model of Python `str.strip()` on `String.data`. -/
def stripChars (l : List Char) : List Char :=
  (((l.dropWhile isPySpace).reverse.dropWhile isPySpace)).reverse

/-- Python `str.strip()`. -/
def pyStrip (s : String) : String :=
  ⟨stripChars s.data⟩

/-- Source `normalize_text` (utils.py line 257-258): `(s or "").strip()`.
The argument is always a string here, so `s or ""` is the identity. -/
def normalize_text (s : String) : String :=
  pyStrip s

/-- An axis-aligned bounding box `(x, y, width, height)` — the
`bbox_xywh` tuples of the source.  Coordinates are integers in both
collection paths (`int(...)` casts in utils.py lines 210-213, 231-235). -/
structure Box where
  x : ℤ
  y : ℤ
  w : ℤ
  h : ℤ
deriving DecidableEq, Repr

/-- One entry of `detected_texts` (utils.py lines 214-220 / 238-244):
one OCR hit on one frame.  The collector always sets the `frame` key, so it
is modelled as a plain `ℕ`; `bbox_xywh` can be `None` on the easyocr path
(line 237), hence `Option Box`. -/
structure Obs where
  text : String
  confidence : ℚ
  frame : ℕ
  bbox : Option Box
deriving DecidableEq, Repr

/-- The per-text accumulator of `text_stats` (utils.py line 268):
`{"occurrences": 0, "frame_conf": {}, "frame_bbox": {}}`, the two inner
dicts modelled as association lists keyed by frame index. -/
structure Stats where
  occurrences : ℕ
  frameConf : List (ℕ × ℚ)
  frameBbox : List (ℕ × Box)
deriving DecidableEq, Repr

/-- Association-list lookup: the model of Python `dict.get`. -/
def alGet {κ ν : Type} [DecidableEq κ] : List (κ × ν) → κ → Option ν
  | [], _ => none
  | (k, v) :: rest, k' => if k' = k then some v else alGet rest k'

/-- Association-list insert-or-update: the model of `dict[k] = v`.
An existing key keeps its position; a fresh key is appended at the end,
exactly as in a Python dict. -/
def alSet {κ ν : Type} [DecidableEq κ] : List (κ × ν) → κ → ν → List (κ × ν)
  | [], k, v => [(k, v)]
  | (k0, v0) :: rest, k, v =>
    if k = k0 then (k0, v) :: rest else (k0, v0) :: alSet rest k v

/-- The per-observation update of one `Stats` entry (utils.py lines
269-275): bump `occurrences`, record the larger per-frame confidence
(`stats["frame_conf"].get(frame_no, 0.0)` then `if confidence > prev`), and
unconditionally overwrite the per-frame bounding box with the current one
when it is not `None`. -/
def updateStats (st : Stats) (o : Obs) : Stats :=
  let st1 : Stats := { st with occurrences := st.occurrences + 1 }
  let prev := (alGet st1.frameConf o.frame).getD 0
  let st2 : Stats :=
    if prev < o.confidence then
      { st1 with frameConf := alSet st1.frameConf o.frame o.confidence }
    else st1
  match o.bbox with
  | some b => { st2 with frameBbox := alSet st2.frameBbox o.frame b }
  | none => st2

/-- One iteration of the `for item in detected_texts` accumulation loop
(utils.py lines 261-275): skip empty normalized text, fetch-or-create the
entry (`setdefault`), and update it. -/
def addObs (ts : List (String × Stats)) (o : Obs) : List (String × Stats) :=
  let t := normalize_text o.text
  if t = "" then ts
  else alSet ts t (updateStats ((alGet ts t).getD ⟨0, [], []⟩) o)

/-- The full `text_stats` accumulation (utils.py lines 260-275). -/
def text_stats (l : List Obs) : List (String × Stats) :=
  l.foldl addObs []

/-- Source line 278:
`int(math.ceil(num_frames * 0.6)) if num_frames and num_frames > 0 else 0`. -/
def consistencyThreshold (n : ℕ) : ℤ :=
  if 0 < n then ⌈(n : ℚ) * (6 / 10)⌉ else 0

/-- Python `int()` applied to an exact rational: truncation toward zero. -/
def pyInt (q : ℚ) : ℤ :=
  if 0 ≤ q then ⌊q⌋ else ⌈q⌉

/-- Source `sorted(xs)[len(xs)//2]` (utils.py lines 292-295): the element at
index `len/2` of the ascending sort — the middle element for odd length, the
upper-middle element for even length. -/
def pyMedian (zs : List ℤ) : ℤ :=
  (List.insertionSort (· ≤ ·) zs).getD (zs.length / 2) 0

/-- Suggested-region computation for one text group
(utils.py lines 286-299), given the list of collected per-frame boxes. -/
def suggestedRegion (padding : ℚ) (bxs : List Box) : Option Box :=
  if bxs.isEmpty then none
  else
    let mx := pyMedian (bxs.map Box.x)
    let my := pyMedian (bxs.map Box.y)
    let mw := pyMedian (bxs.map Box.w)
    let mh := pyMedian (bxs.map Box.h)
    let pad := max 0 padding
    let px := pyInt ((mw : ℚ) * pad)
    let py := pyInt ((mh : ℚ) * pad)
    some ⟨max 0 (mx - px), max 0 (my - py), mw + 2 * px, mh + 2 * py⟩

/-- One output entry of the `watermarks` list (utils.py lines 301-309). -/
structure Candidate where
  text : String
  frequency : ℕ
  confidence : ℚ
  frames : List ℕ
  appears_consistently : Bool
  occurrences : ℕ
  region : Option Box
deriving DecidableEq, Repr

/-- The body of the `for text, info in text_stats.items()` loop
(utils.py lines 279-309): `none` when the group is discarded
(`frame_frequency < 2`), otherwise the built candidate. -/
def mkCandidate (numFrames : ℕ) (padding : ℚ) (t : String) (info : Stats) :
    Option Candidate :=
  let frames := List.insertionSort (· ≤ ·) (info.frameConf.map Prod.fst)
  let freq := frames.length
  if freq < 2 then none
  else
    let avg : ℚ := (info.frameConf.map Prod.snd).sum / ((max 1 freq : ℕ) : ℚ)
    let bxs := frames.filterMap (fun f => alGet info.frameBbox f)
    some
      { text := t
        frequency := freq
        confidence := avg
        frames := frames
        appears_consistently :=
          decide (max 2 (consistencyThreshold numFrames) ≤ (freq : ℤ))
        occurrences := info.occurrences
        region := suggestedRegion padding bxs }

/-- Sort key of utils.py line 311:
`(appears_consistently, frequency, confidence)`, booleans compared as 0/1. -/
def candKey (c : Candidate) : ℕ × ℕ × ℚ :=
  ((if c.appears_consistently then 1 else 0), c.frequency, c.confidence)

/-- Strict lexicographic comparison of sort keys (Python tuple `<`). -/
def keyLtb (p q : ℕ × ℕ × ℚ) : Bool :=
  decide (p.1 < q.1 ∨ (p.1 = q.1 ∧
    (p.2.1 < q.2.1 ∨ (p.2.1 = q.2.1 ∧ p.2.2 < q.2.2))))

/-- Relation realizing `watermarks.sort(key=..., reverse=True)`:
a stable descending sort places `a` no later than `b` exactly when
`key a` is not strictly below `key b`. -/
def rankRel (a b : Candidate) : Prop :=
  keyLtb (candKey a) (candKey b) = false

instance : DecidableRel rankRel :=
  fun _ _ => instDecidableEqBool _ _

/-- The stable descending sort of utils.py line 311.  Python's sort is
stable, and `List.insertionSort` with the reflexive relation `rankRel`
(inserting each earlier element in front of later equal-key elements)
produces the identical stable result. -/
def sortCandidates (ws : List Candidate) : List Candidate :=
  List.insertionSort rankRel ws

/-- The whole aggregation (utils.py lines 260-311): accumulate `text_stats`,
build candidates in dict order, and sort. -/
def aggregateCandidates (l : List Obs) (numFrames : ℕ) (padding : ℚ) :
    List Candidate :=
  sortCandidates
    ((text_stats l).filterMap (fun p => mkCandidate numFrames padding p.1 p.2))

/-- The dictionary returned by `detect_watermark` restricted to the fields
the aggregation writes (utils.py lines 250-255 and 313-318).  `message` and
`total_frames_analyzed` are `Option`s because each of the two `return`
statements includes only one of them; `video_duration`, a pure pass-through
of decoder output, is omitted. -/
structure DetectResult where
  watermark_found : Bool
  watermarks : List Candidate
  message : Option String
  total_frames_analyzed : Option ℕ
deriving DecidableEq, Repr

/-- The aggregation stage of `detect_watermark`: the early return for an
empty `detected_texts` (lines 250-255) and the final return (lines 313-318).
`framesAnalyzed` is `len(frame_indices)`. -/
def detectAggregate (l : List Obs) (numFrames : ℕ) (padding : ℚ)
    (framesAnalyzed : ℕ) : DetectResult :=
  if l = [] then
    { watermark_found := false
      watermarks := []
      message := some "No watermark text detected"
      total_frames_analyzed := none }
  else
    let ws := aggregateCandidates l numFrames padding
    { watermark_found := decide (0 < ws.length)
      watermarks := ws
      message := none
      total_frames_analyzed := some framesAnalyzed }

/-- The frame sampler (utils.py lines 163-169). -/
def sampleFrames (totalFrames : ℕ) (numFrames : ℕ) : List ℕ :=
  if 0 < totalFrames then
    (List.range numFrames).map
      (fun i => (i + 1) * max 1 (totalFrames / (numFrames + 1)))
  else [0]

/-- One row of the `pytesseract.image_to_data` dictionary (utils.py lines
204-213): `conf = none` models an unparsable `data['conf'][i]`
(the `except` branch sets it to `-1.0`). -/
structure TessRow where
  text : String
  conf : Option ℚ
  left : ℤ
  top : ℤ
  width : ℤ
  height : ℤ
deriving DecidableEq, Repr

/-- The tesseract collection loop for one frame (utils.py lines 204-220):
keep a row when its text is non-empty, its stripped text is non-empty, and
`conf_val > min_confidence * 100` (strict). -/
def tessCollect (minConf : ℚ) (offX offY : ℤ) (frameIdx : ℕ)
    (rows : List TessRow) : List Obs :=
  rows.filterMap (fun r =>
    let confVal : ℚ := r.conf.getD (-1)
    if r.text ≠ "" ∧ pyStrip r.text ≠ "" ∧ minConf * 100 < confVal then
      some ⟨pyStrip r.text, confVal / 100, frameIdx,
        some ⟨r.left + offX, r.top + offY, r.width, r.height⟩⟩
    else none)

/-- One easyocr detection `(bbox, text, confidence)` (utils.py line 226);
the bbox is a point polygon. -/
structure EasyRow where
  bbox : List (ℤ × ℤ)
  text : String
  conf : ℚ
deriving DecidableEq, Repr

/-- Minimum of a nonempty list realized as a fold (Python `min`). -/
def listMin (x : ℤ) (xs : List ℤ) : ℤ := xs.foldl min x

/-- Maximum of a nonempty list realized as a fold (Python `max`). -/
def listMax (x : ℤ) (xs : List ℤ) : ℤ := xs.foldl max x

/-- The xywh conversion of an easyocr polygon (utils.py lines 228-237):
`min`/`max` over the vertex coordinates plus the region offset; an empty
polygon raises inside the `try`, caught to `None`. -/
def easyXywh (offX offY : ℤ) (poly : List (ℤ × ℤ)) : Option Box :=
  match poly with
  | [] => none
  | p :: ps =>
    let minX := listMin p.1 (ps.map Prod.fst)
    let minY := listMin p.2 (ps.map Prod.snd)
    let maxX := listMax p.1 (ps.map Prod.fst)
    let maxY := listMax p.2 (ps.map Prod.snd)
    some ⟨minX + offX, minY + offY, max 1 (maxX - minX), max 1 (maxY - minY)⟩

/-- The easyocr collection loop for one frame (utils.py lines 225-244):
keep a detection when `confidence >= min_confidence` (non-strict); the text
is stripped but never tested for emptiness. -/
def easyCollect (minConf : ℚ) (offX offY : ℤ) (frameIdx : ℕ)
    (rows : List EasyRow) : List Obs :=
  rows.filterMap (fun r =>
    if minConf ≤ r.conf then
      some ⟨pyStrip r.text, r.conf, frameIdx, easyXywh offX offY r.bbox⟩
    else none)

/-!
Characterization functions used by the theorem statements: per-text and
per-(text, frame) views of the observation list, written independently of
the accumulation loop.
-/

/-- All observations whose normalized text is `t`. -/
def obsOf (l : List Obs) (t : String) : List Obs :=
  l.filter (fun o => decide (normalize_text o.text = t))

/-- All observations whose normalized text is `t` and frame is `f`. -/
def obsAt (l : List Obs) (t : String) (f : ℕ) : List Obs :=
  l.filter (fun o => decide (normalize_text o.text = t) && decide (o.frame = f))

/-- Running maximum of a confidence list starting from the dict-get default
`0.0` — the value the accumulation loop tracks per (text, frame). -/
def posMax (cs : List ℚ) : ℚ :=
  cs.foldl max 0

/-- Reference value of `frame_conf[f]` for text `t`: present exactly when
some observation of `(t, f)` has positive confidence, and then equal to the
running maximum. -/
def recConf (l : List Obs) (t : String) (f : ℕ) : Option ℚ :=
  let m := posMax ((obsAt l t f).map Obs.confidence)
  if 0 < m then some m else none

/-- Reference value of `frame_bbox[f]` for text `t`: the bounding box of the
last observation of `(t, f)` (in input order) whose box is not `None`. -/
def recBbox (l : List Obs) (t : String) (f : ℕ) : Option Box :=
  ((obsAt l t f).filterMap Obs.bbox).getLast?

/-- The distinct frames holding a positive-confidence observation of `t`. -/
def posFrames (l : List Obs) (t : String) : List ℕ :=
  ((l.filter (fun o =>
      decide (normalize_text o.text = t) && decide (0 < o.confidence))).map
    Obs.frame).dedup

/-- Modelled from the spec: the suggested-region formula as the
specification words it, with the lower median (`sorted[(len-1)//2]`) for
even counts and `⌊·⌋` padding — stated for comparison with
`suggestedRegion`, which is translated from the source. -/
def specLowerRegion (padding : ℚ) (bxs : List Box) : Option Box :=
  if bxs.isEmpty then none
  else
    let med := fun zs : List ℤ =>
      (List.insertionSort (· ≤ ·) zs).getD ((zs.length - 1) / 2) 0
    let mx := med (bxs.map Box.x)
    let my := med (bxs.map Box.y)
    let mw := med (bxs.map Box.w)
    let mh := med (bxs.map Box.h)
    let px := ⌊(mw : ℚ) * padding⌋
    let py := ⌊(mh : ℚ) * padding⌋
    some ⟨max 0 (mx - px), max 0 (my - py), mw + 2 * px, mh + 2 * py⟩

/-!
Association-list lemmas: behaviour of `alGet` after `alSet`, and the key
structure of the updated list.
-/

theorem alGet_alSet_self {κ ν : Type} [DecidableEq κ]
    (l : List (κ × ν)) (k : κ) (v : ν) : alGet (alSet l k v) k = some v := by
  induction l with
  | nil => simp [alSet, alGet]
  | cons p rest ih =>
    by_cases h : k = p.1
    · simp [alSet, alGet, h]
    · simp [alSet, alGet, h, ih]

theorem alGet_alSet_ne {κ ν : Type} [DecidableEq κ]
    (l : List (κ × ν)) (k k' : κ) (v : ν) (h : k' ≠ k) :
    alGet (alSet l k v) k' = alGet l k' := by
  induction l with
  | nil => simp [alSet, alGet, h]
  | cons p rest ih =>
    by_cases hk : k = p.1
    · subst hk
      simp [alSet, alGet, h]
    · by_cases hk' : k' = p.1
      · simp [alSet, alGet, hk, hk']
      · simp [alSet, alGet, hk, hk', ih]

theorem alGet_eq_none_iff {κ ν : Type} [DecidableEq κ]
    (l : List (κ × ν)) (k : κ) :
    alGet l k = none ↔ k ∉ l.map Prod.fst := by
  induction l with
  | nil => simp [alGet]
  | cons p rest ih =>
    by_cases h : k = p.1
    · simp [alGet, h]
    · simp [alGet, h, ih]

theorem alGet_isSome_iff {κ ν : Type} [DecidableEq κ]
    (l : List (κ × ν)) (k : κ) :
    (∃ v, alGet l k = some v) ↔ k ∈ l.map Prod.fst := by
  rcases h : alGet l k with _ | v
  · rw [alGet_eq_none_iff] at h
    simp [h]
  · have hne : alGet l k ≠ none := by simp [h]
    rw [ne_eq, alGet_eq_none_iff, not_not] at hne
    simp [hne]

theorem mem_keys_alSet {κ ν : Type} [DecidableEq κ]
    (l : List (κ × ν)) (k k' : κ) (v : ν) :
    k' ∈ (alSet l k v).map Prod.fst ↔ k' ∈ l.map Prod.fst ∨ k' = k := by
  induction l with
  | nil => simp [alSet]
  | cons p rest ih =>
    obtain ⟨k0, v0⟩ := p
    by_cases h : k = k0
    · subst h
      simp [alSet]
      tauto
    · simp [alSet, h, ih]
      tauto

theorem nodup_keys_alSet {κ ν : Type} [DecidableEq κ]
    (l : List (κ × ν)) (k : κ) (v : ν) (h : (l.map Prod.fst).Nodup) :
    ((alSet l k v).map Prod.fst).Nodup := by
  induction l with
  | nil => simp [alSet]
  | cons p rest ih =>
    obtain ⟨k0, v0⟩ := p
    simp only [List.map_cons, List.nodup_cons] at h
    by_cases hk : k = k0
    · subst hk
      simpa [alSet] using h
    · have h2 := ih h.2
      simp only [alSet, if_neg hk, List.map_cons, List.nodup_cons]
      refine ⟨?_, h2⟩
      intro hmem
      rw [mem_keys_alSet] at hmem
      rcases hmem with h1 | h1
      · exact h.1 h1
      · exact hk h1.symm

theorem alGet_mem {κ ν : Type} [DecidableEq κ]
    (l : List (κ × ν)) (k : κ) (v : ν) (h : alGet l k = some v) : (k, v) ∈ l := by
  induction l with
  | nil => simp [alGet] at h
  | cons p rest ih =>
    obtain ⟨k0, v0⟩ := p
    by_cases hk : k = k0
    · simp only [alGet, if_pos hk] at h
      cases h
      subst hk
      exact List.mem_cons_self _ _
    · simp only [alGet, if_neg hk] at h
      exact List.mem_cons_of_mem _ (ih h)

theorem mem_alGet_of_nodup {κ ν : Type} [DecidableEq κ]
    (l : List (κ × ν)) (k : κ) (v : ν) (hnd : (l.map Prod.fst).Nodup)
    (h : (k, v) ∈ l) : alGet l k = some v := by
  induction l with
  | nil => cases h
  | cons p rest ih =>
    obtain ⟨k0, v0⟩ := p
    simp only [List.map_cons, List.nodup_cons] at hnd
    rcases List.mem_cons.mp h with h1 | h1
    · rw [Prod.mk.injEq] at h1
      obtain ⟨h1a, h1b⟩ := h1
      subst h1a
      subst h1b
      simp [alGet]
    · have hk : k ≠ k0 := by
        intro hk
        subst hk
        exact hnd.1 (List.mem_map_of_mem Prod.fst h1)
      rw [alGet, if_neg hk]
      exact ih hnd.2 h1

/-!
Lemmas for the running maximum `posMax` (the per-frame confidence fold). -/

theorem le_foldl_max (b : ℚ) (cs : List ℚ) : b ≤ cs.foldl max b := by
  induction cs generalizing b with
  | nil => simp
  | cons c cs ih => exact le_trans (le_max_left b c) (ih (max b c))

theorem posMax_nonneg (cs : List ℚ) : 0 ≤ posMax cs :=
  le_foldl_max 0 cs

theorem posMax_concat (cs : List ℚ) (c : ℚ) :
    posMax (cs ++ [c]) = max (posMax cs) c := by
  simp [posMax, List.foldl_append]

theorem foldl_max_perm (cs ds : List ℚ) (h : cs.Perm ds) :
    ∀ b : ℚ, cs.foldl max b = ds.foldl max b := by
  induction h with
  | nil => intro b; rfl
  | cons x _ ih => intro b; simp only [List.foldl_cons]; exact ih (max b x)
  | swap x y _ =>
    intro b
    simp only [List.foldl_cons]
    rw [max_assoc, max_comm y x, ← max_assoc]
  | trans _ _ ih1 ih2 => intro b; rw [ih1 b, ih2 b]

theorem posMax_perm (cs ds : List ℚ) (h : cs.Perm ds) : posMax cs = posMax ds :=
  foldl_max_perm cs ds h 0

theorem le_foldl_max_of_mem (cs : List ℚ) (c : ℚ) :
    ∀ b : ℚ, c ∈ cs → c ≤ cs.foldl max b := by
  induction cs with
  | nil =>
    intro b h
    cases h
  | cons d ds ih =>
    intro b h
    simp only [List.foldl_cons]
    rcases List.mem_cons.mp h with h1 | h1
    · subst h1
      exact le_trans (le_max_right b c) (le_foldl_max _ ds)
    · exact ih (max b d) h1

theorem foldl_max_mem (cs : List ℚ) :
    ∀ b : ℚ, cs.foldl max b ∈ cs ∨ cs.foldl max b = b := by
  induction cs with
  | nil =>
    intro b
    simp
  | cons d ds ih =>
    intro b
    simp only [List.foldl_cons]
    rcases ih (max b d) with h1 | h1
    · exact Or.inl (List.mem_cons_of_mem _ h1)
    · rcases max_cases b d with ⟨h2, _⟩ | ⟨h2, _⟩
      · exact Or.inr (h1.trans h2)
      · refine Or.inl ?_
        rw [h1, h2]
        exact List.mem_cons_self d ds

theorem mem_le_posMax (cs : List ℚ) (c : ℚ) (h : c ∈ cs) : c ≤ posMax cs :=
  le_foldl_max_of_mem cs c 0 h

theorem posMax_mem_of_pos (cs : List ℚ) (h : 0 < posMax cs) : posMax cs ∈ cs := by
  rcases foldl_max_mem cs 0 with h1 | h1
  · exact h1
  · exfalso
    have : posMax cs = 0 := h1
    rw [this] at h
    exact lt_irrefl 0 h

theorem posMax_pos_iff (cs : List ℚ) : 0 < posMax cs ↔ ∃ c ∈ cs, 0 < c := by
  constructor
  · intro h
    exact ⟨posMax cs, posMax_mem_of_pos cs h, h⟩
  · rintro ⟨c, hc, hcpos⟩
    exact lt_of_lt_of_le hcpos (mem_le_posMax cs c hc)

/-!
Behaviour of the per-text and per-(text, frame) views under appending one
observation at the end of the input list. -/

theorem obsOf_concat (l : List Obs) (o : Obs) (t : String) :
    obsOf (l ++ [o]) t =
      obsOf l t ++ if normalize_text o.text = t then [o] else [] := by
  by_cases h : normalize_text o.text = t <;>
    simp [obsOf, List.filter_append, h]

theorem obsAt_concat (l : List Obs) (o : Obs) (t : String) (f : ℕ) :
    obsAt (l ++ [o]) t f =
      obsAt l t f ++
        if normalize_text o.text = t ∧ o.frame = f then [o] else [] := by
  by_cases h1 : normalize_text o.text = t <;> by_cases h2 : o.frame = f <;>
    simp [obsAt, List.filter_append, h1, h2]

theorem recConf_concat_ne (l : List Obs) (o : Obs) (t : String) (f : ℕ)
    (h : ¬(normalize_text o.text = t ∧ o.frame = f)) :
    recConf (l ++ [o]) t f = recConf l t f := by
  rw [recConf, recConf, obsAt_concat, if_neg h, List.append_nil]

theorem recBbox_concat_ne (l : List Obs) (o : Obs) (t : String) (f : ℕ)
    (h : ¬(normalize_text o.text = t ∧ o.frame = f)) :
    recBbox (l ++ [o]) t f = recBbox l t f := by
  rw [recBbox, recBbox, obsAt_concat, if_neg h, List.append_nil]

theorem obsOf_eq_nil (l : List Obs) (t : String)
    (h : ∀ o ∈ l, normalize_text o.text ≠ t) : obsOf l t = [] := by
  rw [obsOf, List.filter_eq_nil_iff]
  intro o ho
  simp [h o ho]

theorem obsAt_eq_nil (l : List Obs) (t : String) (f : ℕ)
    (h : ∀ o ∈ l, normalize_text o.text ≠ t) : obsAt l t f = [] := by
  rw [obsAt, List.filter_eq_nil_iff]
  intro o ho
  simp [h o ho]

/-!
Projections of `updateStats` and the two branches of `addObs`. -/

theorem updateStats_occurrences (st : Stats) (o : Obs) :
    (updateStats st o).occurrences = st.occurrences + 1 := by
  cases hb : o.bbox <;> simp only [updateStats, hb] <;> split <;> rfl

theorem updateStats_frameConf (st : Stats) (o : Obs) :
    (updateStats st o).frameConf =
      if (alGet st.frameConf o.frame).getD 0 < o.confidence then
        alSet st.frameConf o.frame o.confidence
      else st.frameConf := by
  cases hb : o.bbox <;> simp only [updateStats, hb] <;> split <;> rfl

theorem updateStats_frameBbox (st : Stats) (o : Obs) :
    (updateStats st o).frameBbox =
      match o.bbox with
      | some b => alSet st.frameBbox o.frame b
      | none => st.frameBbox := by
  cases hb : o.bbox <;> simp only [updateStats, hb] <;> split <;> rfl

theorem addObs_skip (ts : List (String × Stats)) (o : Obs)
    (h : normalize_text o.text = "") : addObs ts o = ts := by
  simp [addObs, h]

theorem addObs_update (ts : List (String × Stats)) (o : Obs)
    (h : normalize_text o.text ≠ "") :
    addObs ts o = alSet ts (normalize_text o.text)
      (updateStats ((alGet ts (normalize_text o.text)).getD ⟨0, [], []⟩) o) := by
  simp [addObs, h]

/-- Invariant characterizing the `text_stats` accumulator after processing
the observation list `l`: the keys are exactly the non-empty normalized
texts occurring in `l` (without duplicates), and each entry records the
occurrence count, the per-frame positive running-maximum confidences, and
the per-frame last non-`None` bounding boxes. -/
def statsInv (l : List Obs) (ts : List (String × Stats)) : Prop :=
  (ts.map Prod.fst).Nodup ∧
  (∀ t : String,
    t ∈ ts.map Prod.fst ↔ t ≠ "" ∧ ∃ o ∈ l, normalize_text o.text = t) ∧
  ∀ t st, alGet ts t = some st →
    st.occurrences = (obsOf l t).length ∧
    (st.frameConf.map Prod.fst).Nodup ∧
    (∀ f, alGet st.frameConf f = recConf l t f) ∧
    (∀ f, alGet st.frameBbox f = recBbox l t f)

theorem entry_spec_default (l : List Obs) (t0 : String)
    (h : ∀ o ∈ l, normalize_text o.text ≠ t0) :
    (Stats.mk 0 [] []).occurrences = (obsOf l t0).length ∧
    ((Stats.mk 0 [] []).frameConf.map Prod.fst).Nodup ∧
    (∀ f, alGet (Stats.mk 0 [] []).frameConf f = recConf l t0 f) ∧
    (∀ f, alGet (Stats.mk 0 [] []).frameBbox f = recBbox l t0 f) := by
  refine ⟨?_, by simp, ?_, ?_⟩
  · rw [obsOf_eq_nil l t0 h]
    rfl
  · intro f
    rw [recConf, obsAt_eq_nil l t0 f h]
    simp [alGet, posMax]
  · intro f
    rw [recBbox, obsAt_eq_nil l t0 f h]
    simp [alGet]

theorem entry_spec_update (l : List Obs) (o : Obs) (t0 : String)
    (ht0 : normalize_text o.text = t0) (old : Stats)
    (e1 : old.occurrences = (obsOf l t0).length)
    (e2 : (old.frameConf.map Prod.fst).Nodup)
    (e3 : ∀ f, alGet old.frameConf f = recConf l t0 f)
    (e4 : ∀ f, alGet old.frameBbox f = recBbox l t0 f) :
    (updateStats old o).occurrences = (obsOf (l ++ [o]) t0).length ∧
    ((updateStats old o).frameConf.map Prod.fst).Nodup ∧
    (∀ f, alGet (updateStats old o).frameConf f = recConf (l ++ [o]) t0 f) ∧
    (∀ f, alGet (updateStats old o).frameBbox f = recBbox (l ++ [o]) t0 f) := by
  have hprev : (alGet old.frameConf o.frame).getD 0 =
      posMax ((obsAt l t0 o.frame).map Obs.confidence) := by
    rw [e3 o.frame, recConf]
    by_cases hm : 0 < posMax ((obsAt l t0 o.frame).map Obs.confidence)
    · rw [if_pos hm]
      rfl
    · rw [if_neg hm]
      have h1 : posMax ((obsAt l t0 o.frame).map Obs.confidence) = 0 :=
        le_antisymm (le_of_not_lt hm) (posMax_nonneg _)
      rw [h1]
      rfl
  refine ⟨?_, ?_, ?_, ?_⟩
  · rw [updateStats_occurrences, obsOf_concat, if_pos ht0, e1,
      List.length_append, List.length_singleton]
  · rw [updateStats_frameConf]
    split
    · exact nodup_keys_alSet _ _ _ e2
    · exact e2
  · intro f
    rw [updateStats_frameConf]
    by_cases hf : f = o.frame
    · subst hf
      have hconcat : (obsAt (l ++ [o]) t0 o.frame).map Obs.confidence =
          (obsAt l t0 o.frame).map Obs.confidence ++ [o.confidence] := by
        rw [obsAt_concat, if_pos ⟨ht0, rfl⟩, List.map_append]
        rfl
      rw [recConf, hconcat, posMax_concat]
      by_cases hlt : (alGet old.frameConf o.frame).getD 0 < o.confidence
      · rw [if_pos hlt, alGet_alSet_self]
        rw [hprev] at hlt
        have hmax : max (posMax ((obsAt l t0 o.frame).map Obs.confidence))
            o.confidence = o.confidence := max_eq_right (le_of_lt hlt)
        have hpos : 0 < o.confidence := lt_of_le_of_lt (posMax_nonneg _) hlt
        rw [hmax, if_pos hpos]
      · rw [if_neg hlt, e3 o.frame, recConf]
        rw [hprev] at hlt
        have hmax : max (posMax ((obsAt l t0 o.frame).map Obs.confidence))
            o.confidence = posMax ((obsAt l t0 o.frame).map Obs.confidence) :=
          max_eq_left (le_of_not_lt hlt)
        rw [hmax]
    · have hne : ¬(normalize_text o.text = t0 ∧ o.frame = f) := by
        rintro ⟨-, hfr⟩
        exact hf hfr.symm
      rw [recConf_concat_ne l o t0 f hne]
      split
      · rw [alGet_alSet_ne _ _ _ _ hf]
        exact e3 f
      · exact e3 f
  · intro f
    rw [updateStats_frameBbox]
    cases hb : o.bbox with
    | none =>
      have hsame : recBbox (l ++ [o]) t0 f = recBbox l t0 f := by
        rw [recBbox, recBbox, obsAt_concat]
        by_cases hc : normalize_text o.text = t0 ∧ o.frame = f
        · rw [if_pos hc, List.filterMap_append]
          simp [hb]
        · rw [if_neg hc, List.append_nil]
      rw [hsame]
      exact e4 f
    | some b =>
      by_cases hf : f = o.frame
      · subst hf
        rw [alGet_alSet_self, recBbox, obsAt_concat, if_pos ⟨ht0, rfl⟩,
          List.filterMap_append]
        have : List.filterMap Obs.bbox [o] = [b] := by simp [hb]
        rw [this, List.getLast?_concat]
      · have hne : ¬(normalize_text o.text = t0 ∧ o.frame = f) := by
          rintro ⟨-, hfr⟩
          exact hf hfr.symm
        rw [alGet_alSet_ne _ _ _ _ hf, recBbox_concat_ne l o t0 f hne]
        exact e4 f

theorem statsInv_addObs (l : List Obs) (ts : List (String × Stats)) (o : Obs)
    (h : statsInv l ts) : statsInv (l ++ [o]) (addObs ts o) := by
  obtain ⟨hnd, hmem, hent⟩ := h
  by_cases h0 : normalize_text o.text = ""
  · rw [addObs_skip ts o h0]
    refine ⟨hnd, ?_, ?_⟩
    · intro t
      rw [hmem t]
      constructor
      · rintro ⟨ht, o', ho', hno'⟩
        exact ⟨ht, o', List.mem_append_left _ ho', hno'⟩
      · rintro ⟨ht, o', ho', hno'⟩
        rcases List.mem_append.mp ho' with h1 | h1
        · exact ⟨ht, o', h1, hno'⟩
        · rw [List.mem_singleton] at h1
          subst h1
          exact absurd (hno'.symm.trans h0) ht
    · intro t st hget
      have htkeys : t ∈ ts.map Prod.fst := (alGet_isSome_iff ts t).mp ⟨st, hget⟩
      obtain ⟨htne, -⟩ := (hmem t).mp htkeys
      have hone : normalize_text o.text ≠ t := fun hh =>
        htne (hh.symm.trans h0)
      obtain ⟨e1, e2, e3, e4⟩ := hent t st hget
      refine ⟨?_, e2, ?_, ?_⟩
      · rw [obsOf_concat, if_neg hone, List.append_nil]
        exact e1
      · intro f
        rw [recConf_concat_ne l o t f (fun hc => hone hc.1)]
        exact e3 f
      · intro f
        rw [recBbox_concat_ne l o t f (fun hc => hone hc.1)]
        exact e4 f
  · rw [addObs_update ts o h0]
    refine ⟨nodup_keys_alSet _ _ _ hnd, ?_, ?_⟩
    · intro t
      rw [mem_keys_alSet, hmem t]
      constructor
      · rintro (⟨ht, o', ho', hno'⟩ | rfl)
        · exact ⟨ht, o', List.mem_append_left _ ho', hno'⟩
        · exact ⟨h0, o, List.mem_append_right _ (List.mem_singleton.mpr rfl),
            rfl⟩
      · rintro ⟨ht, o', ho', hno'⟩
        rcases List.mem_append.mp ho' with h1 | h1
        · exact Or.inl ⟨ht, o', h1, hno'⟩
        · rw [List.mem_singleton] at h1
          subst h1
          exact Or.inr hno'.symm
    · intro t st hget
      by_cases hteq : t = normalize_text o.text
      · subst hteq
        rw [alGet_alSet_self] at hget
        have hst : st =
            updateStats ((alGet ts (normalize_text o.text)).getD ⟨0, [], []⟩)
              o := by
          cases hget
          rfl
        subst hst
        rcases halGet : alGet ts (normalize_text o.text) with _ | old
        · have habs : ∀ o' ∈ l, normalize_text o'.text ≠ normalize_text o.text := by
            intro o' ho' hno'
            have : normalize_text o.text ∈ ts.map Prod.fst := by
              rw [hmem]
              exact ⟨h0, o', ho', hno'⟩
            exact ((alGet_eq_none_iff ts (normalize_text o.text)).mp halGet)
              this
          obtain ⟨d1, d2, d3, d4⟩ := entry_spec_default l (normalize_text o.text) habs
          exact entry_spec_update l o (normalize_text o.text) rfl _ d1 d2 d3 d4
        · obtain ⟨e1, e2, e3, e4⟩ := hent (normalize_text o.text) old halGet
          exact entry_spec_update l o (normalize_text o.text) rfl old e1 e2 e3 e4
      · rw [alGet_alSet_ne _ _ _ _ hteq] at hget
        have hone : normalize_text o.text ≠ t := fun hh => hteq hh.symm
        obtain ⟨e1, e2, e3, e4⟩ := hent t st hget
        refine ⟨?_, e2, ?_, ?_⟩
        · rw [obsOf_concat, if_neg hone, List.append_nil]
          exact e1
        · intro f
          rw [recConf_concat_ne l o t f (fun hc => hone hc.1)]
          exact e3 f
        · intro f
          rw [recBbox_concat_ne l o t f (fun hc => hone hc.1)]
          exact e4 f

theorem statsInv_nil : statsInv [] [] := by
  refine ⟨by simp, ?_, ?_⟩
  · intro t
    simp
  · intro t st hget
    simp [alGet] at hget

theorem statsInv_text_stats (l : List Obs) : statsInv l (text_stats l) := by
  induction l using List.reverseRecOn with
  | nil => exact statsInv_nil
  | append_singleton l o ih =>
    rw [text_stats, List.foldl_append, List.foldl_cons, List.foldl_nil]
    exact statsInv_addObs l (text_stats l) o ih

/-!
Flat corollaries of the accumulator invariant, and the candidate-membership
characterization for the aggregation output. -/

theorem text_stats_keys_nodup (l : List Obs) :
    ((text_stats l).map Prod.fst).Nodup :=
  (statsInv_text_stats l).1

theorem mem_text_stats_keys (l : List Obs) (t : String) :
    t ∈ (text_stats l).map Prod.fst ↔
      t ≠ "" ∧ ∃ o ∈ l, normalize_text o.text = t :=
  (statsInv_text_stats l).2.1 t

theorem text_stats_entry (l : List Obs) (t : String) (st : Stats)
    (h : alGet (text_stats l) t = some st) :
    st.occurrences = (obsOf l t).length ∧
    (st.frameConf.map Prod.fst).Nodup ∧
    (∀ f, alGet st.frameConf f = recConf l t f) ∧
    (∀ f, alGet st.frameBbox f = recBbox l t f) :=
  (statsInv_text_stats l).2.2 t st h

theorem frameConf_keys_iff (l : List Obs) (t : String) (st : Stats)
    (h : alGet (text_stats l) t = some st) (f : ℕ) :
    f ∈ st.frameConf.map Prod.fst ↔
      0 < posMax ((obsAt l t f).map Obs.confidence) := by
  rw [← alGet_isSome_iff]
  obtain ⟨-, -, e3, -⟩ := text_stats_entry l t st h
  rw [e3 f, recConf]
  by_cases hp : 0 < posMax ((obsAt l t f).map Obs.confidence)
  · rw [if_pos hp]
    simp [hp]
  · rw [if_neg hp]
    simp [hp]

theorem frameConf_keys_perm_posFrames (l : List Obs) (t : String) (st : Stats)
    (h : alGet (text_stats l) t = some st) :
    (st.frameConf.map Prod.fst).Perm (posFrames l t) := by
  obtain ⟨-, e2, -, -⟩ := text_stats_entry l t st h
  unfold posFrames
  rw [List.perm_ext_iff_of_nodup e2 (List.nodup_dedup _)]
  intro f
  rw [frameConf_keys_iff l t st h f, List.mem_dedup, posMax_pos_iff]
  constructor
  · rintro ⟨c, hc, hcpos⟩
    rw [List.mem_map] at hc
    obtain ⟨o, ho, hoc⟩ := hc
    rw [obsAt, List.mem_filter] at ho
    obtain ⟨hol, hop⟩ := ho
    simp only [Bool.and_eq_true, decide_eq_true_eq] at hop
    rw [List.mem_map]
    refine ⟨o, ?_, hop.2⟩
    rw [List.mem_filter]
    simp only [Bool.and_eq_true, decide_eq_true_eq]
    exact ⟨hol, hop.1, hoc ▸ hcpos⟩
  · intro hf
    rw [List.mem_map] at hf
    obtain ⟨o, ho, hof⟩ := hf
    rw [List.mem_filter] at ho
    simp only [Bool.and_eq_true, decide_eq_true_eq] at ho
    refine ⟨o.confidence, ?_, ho.2.2⟩
    rw [List.mem_map]
    refine ⟨o, ?_, rfl⟩
    rw [obsAt, List.mem_filter]
    simp only [Bool.and_eq_true, decide_eq_true_eq]
    exact ⟨ho.1, ho.2.1, hof⟩

theorem mkCandidate_fields (n : ℕ) (pad : ℚ) (t : String) (info : Stats)
    (c : Candidate) (h : mkCandidate n pad t info = some c) :
    c.text = t ∧
    c.frames = List.insertionSort (· ≤ ·) (info.frameConf.map Prod.fst) ∧
    c.frequency = c.frames.length ∧
    c.confidence =
      (info.frameConf.map Prod.snd).sum / ((max 1 c.frequency : ℕ) : ℚ) ∧
    c.appears_consistently =
      decide (max 2 (consistencyThreshold n) ≤ (c.frequency : ℤ)) ∧
    c.occurrences = info.occurrences ∧
    c.region =
      suggestedRegion pad (c.frames.filterMap (fun f => alGet info.frameBbox f)) ∧
    2 ≤ c.frequency := by
  rw [mkCandidate] at h
  simp only at h
  split at h
  · cases h
  · rename_i hfreq
    cases h
    refine ⟨rfl, rfl, rfl, rfl, rfl, rfl, rfl, ?_⟩
    exact not_lt.mp hfreq

theorem mem_aggregate (l : List Obs) (n : ℕ) (pad : ℚ) (c : Candidate) :
    c ∈ aggregateCandidates l n pad ↔
      ∃ t st, alGet (text_stats l) t = some st ∧
        mkCandidate n pad t st = some c := by
  rw [aggregateCandidates, sortCandidates,
    (List.perm_insertionSort rankRel _).mem_iff, List.mem_filterMap]
  constructor
  · rintro ⟨p, hp, he⟩
    exact ⟨p.1, p.2, mem_alGet_of_nodup _ _ _ (text_stats_keys_nodup l) hp, he⟩
  · rintro ⟨t, st, hget, he⟩
    exact ⟨(t, st), alGet_mem _ _ _ hget, he⟩

/-!
Idempotence of the whitespace strip. -/

theorem stripChars_eq (l : List Char) :
    stripChars l = List.rdropWhile isPySpace (l.dropWhile isPySpace) := rfl

theorem dropWhile_eq_self_of_head (p : Char → Bool) (l : List Char)
    (h : ∀ c, l.head? = some c → p c = false) : l.dropWhile p = l := by
  cases l with
  | nil => rfl
  | cons c cs =>
    have hc := h c rfl
    simp [List.dropWhile_cons, hc]

theorem head?_dropWhile_false (p : Char → Bool) (l : List Char) (c : Char)
    (h : (l.dropWhile p).head? = some c) : p c = false := by
  induction l with
  | nil => cases h
  | cons d ds ih =>
    rw [List.dropWhile_cons] at h
    by_cases hd : p d
    · rw [if_pos hd] at h
      exact ih h
    · rw [if_neg hd] at h
      simp only [List.head?_cons, Option.some.injEq] at h
      subst h
      simpa using hd

theorem head?_of_pre (B A : List Char) (h : B <+: A) (c : Char)
    (hc : B.head? = some c) : A.head? = some c := by
  obtain ⟨t, rfl⟩ := h
  cases B with
  | nil => cases hc
  | cons b bs => simpa using hc

theorem stripChars_idem (l : List Char) :
    stripChars (stripChars l) = stripChars l := by
  rw [stripChars_eq, stripChars_eq]
  have hd : List.dropWhile isPySpace
      (List.rdropWhile isPySpace (l.dropWhile isPySpace)) =
      List.rdropWhile isPySpace (l.dropWhile isPySpace) := by
    apply dropWhile_eq_self_of_head
    intro c hc
    exact head?_dropWhile_false isPySpace l c
      (head?_of_pre _ _ (List.rdropWhile_prefix _ _) c hc)
  rw [hd, List.rdropWhile_idempotent]

theorem pyStrip_idem (s : String) : pyStrip (pyStrip s) = pyStrip s :=
  congrArg String.mk (stripChars_idem s.data)

/-- C6: the frame sampler is a pure function of `total_frames` and
`requested_count`: zero total frames give exactly `[0]`; positive total
frames give exactly the `requested_count` strictly increasing positive
multiples `step, 2*step, ..., requested_count*step` of
`step = max 1 (total_frames / (requested_count + 1))`, with no bounds
clamping (the output is exactly that list of multiples). -/
theorem C6_frame_sampler (tf n : ℕ) :
    sampleFrames 0 n = [0] ∧
    (0 < tf →
      sampleFrames tf n =
        (List.range n).map (fun i => (i + 1) * max 1 (tf / (n + 1))) ∧
      (sampleFrames tf n).length = n ∧
      List.Pairwise (· < ·) (sampleFrames tf n) ∧
      ∀ m ∈ sampleFrames tf n,
        0 < m ∧ ∃ i, 1 ≤ i ∧ i ≤ n ∧ m = i * max 1 (tf / (n + 1))) := by
  have hstep : 0 < max 1 (tf / (n + 1)) := lt_of_lt_of_le one_pos (le_max_left _ _)
  constructor
  · simp [sampleFrames]
  · intro htf
    rw [sampleFrames, if_pos htf]
    refine ⟨rfl, by simp, ?_, ?_⟩
    · refine List.Pairwise.map _ ?_ (List.pairwise_lt_range n)
      intro a b hab
      exact (Nat.mul_lt_mul_right hstep).mpr (by omega)
    · intro m hm
      rw [List.mem_map] at hm
      obtain ⟨i, hi, rfl⟩ := hm
      rw [List.mem_range] at hi
      exact ⟨Nat.mul_pos (by omega) hstep, i + 1, by omega, by omega, rfl⟩

/-- Witness for `C6_frame_sampler` at `total_frames = 10`,
`requested_count = 3`. -/
theorem C6_frame_sampler_witness :
    sampleFrames 10 3 =
      (List.range 3).map (fun i => (i + 1) * max 1 (10 / (3 + 1))) ∧
    (sampleFrames 10 3).length = 3 ∧
    List.Pairwise (· < ·) (sampleFrames 10 3) ∧
    ∀ m ∈ sampleFrames 10 3,
      0 < m ∧ ∃ i, 1 ≤ i ∧ i ≤ 3 ∧ m = i * max 1 (10 / (3 + 1)) :=
  (C6_frame_sampler 10 3).2 (by decide)

/-- C4: for every candidate the aggregator emits, `appears_consistently` is
true exactly when `frequency >= max(2, ceil(requested_count * 0.6))`, where
the threshold is computed from the requested sample count `n` (a parameter
of the aggregation, not the number of frames decoded); in particular with
`n = 5` a candidate of frequency 3 is consistent and one of frequency 2 is
not. -/
theorem C4_consistency (l : List Obs) (n : ℕ) (pad : ℚ) (c : Candidate)
    (hc : c ∈ aggregateCandidates l n pad) :
    (c.appears_consistently = true ↔
      max 2 ⌈(n : ℚ) * (6 / 10)⌉ ≤ (c.frequency : ℤ)) ∧
    (n = 5 → c.frequency = 3 → c.appears_consistently = true) ∧
    (n = 5 → c.frequency = 2 → c.appears_consistently = false) := by
  obtain ⟨t, st, hget, hmk⟩ := (mem_aggregate l n pad c).mp hc
  obtain ⟨-, -, -, -, e5, -, -, -⟩ := mkCandidate_fields n pad t st c hmk
  have hth : max 2 (consistencyThreshold n) = max 2 ⌈(n : ℚ) * (6 / 10)⌉ := by
    rw [consistencyThreshold]
    by_cases hn : 0 < n
    · rw [if_pos hn]
    · rw [if_neg hn]
      have hn0 : n = 0 := by omega
      subst hn0
      norm_num
  rw [hth] at e5
  refine ⟨?_, ?_, ?_⟩
  · rw [e5, decide_eq_true_eq]
  · intro hn hf
    subst hn
    rw [e5, hf]
    decide
  · intro hn hf
    subst hn
    rw [e5, hf]
    decide

/-- Witness for `C4_consistency`: with `requested_count = 5` a concrete
candidate seen in exactly 2 frames is not consistent. -/
theorem C4_consistency_witness :
    (Candidate.mk "A" 2 1 [1, 2] false 2 none).appears_consistently = false :=
  (C4_consistency [⟨"A", 1, 1, none⟩, ⟨"A", 1, 2, none⟩] 5 0
    ⟨"A", 2, 1, [1, 2], false, 2, none⟩ (by decide)).2.2 rfl rfl

/-- C9 (counterexample): a nonempty observation list whose only text group
has frequency 1 yields `watermark_found = false` but the returned dictionary
has no `message` key — the claim's "accompanied by an explanatory message"
fails on this branch (utils.py lines 313-318 include no `'message'`). -/
theorem C9_cex :
    (detectAggregate [⟨"A", 1, 1, none⟩] 5 0 5).watermark_found = false ∧
    (detectAggregate [⟨"A", 1, 1, none⟩] 5 0 5).message = none := by decide

/-- C9 (amended): the aggregation never fails on degenerate input: an empty
observation list yields `watermark_found = false`, an empty candidate list
and an explanatory message; a nonempty observation list whose filtered
candidate list is empty yields `watermark_found = false` with *no* message;
and a nonempty candidate list yields `watermark_found = true` with the full
ranked list. -/
theorem C9_degenerate (l : List Obs) (n fa : ℕ) (pad : ℚ) :
    detectAggregate [] n pad fa =
      ⟨false, [], some "No watermark text detected", none⟩ ∧
    (l ≠ [] → aggregateCandidates l n pad = [] →
      (detectAggregate l n pad fa).watermark_found = false ∧
      (detectAggregate l n pad fa).watermarks = [] ∧
      (detectAggregate l n pad fa).message = none) ∧
    (l ≠ [] → aggregateCandidates l n pad ≠ [] →
      (detectAggregate l n pad fa).watermark_found = true ∧
      (detectAggregate l n pad fa).watermarks = aggregateCandidates l n pad) := by
  refine ⟨rfl, ?_, ?_⟩
  · intro hne hagg
    rw [detectAggregate, if_neg hne]
    simp [hagg]
  · intro hne hagg
    rw [detectAggregate, if_neg hne]
    simp [List.length_pos, hagg]

/-- Witness for `C9_degenerate` on a two-frame group: the candidate list is
nonempty and reported in full. -/
theorem C9_degenerate_witness :
    (detectAggregate [⟨"A", 1, 1, none⟩, ⟨"A", 1, 2, none⟩] 5 0 5).watermark_found
        = true ∧
    (detectAggregate [⟨"A", 1, 1, none⟩, ⟨"A", 1, 2, none⟩] 5 0 5).watermarks =
      aggregateCandidates [⟨"A", 1, 1, none⟩, ⟨"A", 1, 2, none⟩] 5 0 :=
  (C9_degenerate [⟨"A", 1, 1, none⟩, ⟨"A", 1, 2, none⟩] 5 5 0).2.2
    (by decide) (by decide)

/-- C10: every candidate the aggregator emits has a non-empty text equal to
its own whitespace-stripped form, for every input observation list —
including lists containing empty or whitespace-only texts, which the
normalization step skips before grouping. -/
theorem C10_candidate_text (l : List Obs) (n : ℕ) (pad : ℚ) (c : Candidate)
    (hc : c ∈ aggregateCandidates l n pad) :
    c.text ≠ "" ∧ pyStrip c.text = c.text := by
  obtain ⟨t, st, hget, hmk⟩ := (mem_aggregate l n pad c).mp hc
  obtain ⟨e0, -⟩ := mkCandidate_fields n pad t st c hmk
  have hkeys : t ∈ (text_stats l).map Prod.fst :=
    (alGet_isSome_iff _ _).mp ⟨st, hget⟩
  obtain ⟨hne, o, ho, hno⟩ := (mem_text_stats_keys l t).mp hkeys
  rw [e0]
  refine ⟨hne, ?_⟩
  rw [← hno]
  exact pyStrip_idem o.text

/-- Witness for `C10_candidate_text`: an input containing a whitespace-only
text and a padded text still yields a stripped non-empty candidate text. -/
theorem C10_candidate_text_witness :
    (Candidate.mk "A" 2 1 [1, 2] false 2 none).text ≠ "" ∧
    pyStrip (Candidate.mk "A" 2 1 [1, 2] false 2 none).text =
      (Candidate.mk "A" 2 1 [1, 2] false 2 none).text :=
  C10_candidate_text [⟨"  ", 1, 3, none⟩, ⟨" A ", 1, 1, none⟩, ⟨"A", 1, 2, none⟩]
    5 0 ⟨"A", 2, 1, [1, 2], false, 2, none⟩ (by decide)

/-- C7 (counterexample): at `min_confidence = 1/2`, a tesseract detection
with raw confidence 50 satisfies `50 / 100 >= 1/2` yet is dropped, because
the tesseract path compares strictly (`conf_val > min_confidence * 100`,
utils.py line 209) while the easyocr path keeps a detection at exactly the
threshold (`confidence >= min_confidence`, line 227) — the comparison is
not the same non-strict one for both engine families. -/
theorem C7_cex :
    ((1 : ℚ) / 2 ≤ (50 : ℚ) / 100) ∧
    tessCollect (1 / 2) 0 0 1 [⟨"A", some 50, 0, 0, 10, 10⟩] = [] ∧
    easyCollect (1 / 2) 0 0 1 [⟨[(0, 0), (1, 1)], "A", 1 / 2⟩] ≠ [] := by
  decide

/-- C7 (amended): the tesseract collector keeps a row exactly when its text
and stripped text are non-empty and `conf_val > min_confidence * 100`
(strict; equivalently `conf_val / 100 > min_confidence`), with an
unparsable confidence read as −1 and hence dropped whenever
`min_confidence ≥ 0`; the easyocr collector keeps a detection exactly when
`confidence >= min_confidence` (non-strict).  Consequently every collected
tesseract observation has confidence strictly above the threshold and every
collected easyocr observation has confidence at or above it. -/
theorem C7_confidence_filter (minConf : ℚ) (ox oy : ℤ) (fi : ℕ)
    (r : TessRow) (er : EasyRow) (rows : List TessRow)
    (erows : List EasyRow) :
    (tessCollect minConf ox oy fi [r] ≠ [] ↔
      r.text ≠ "" ∧ pyStrip r.text ≠ "" ∧ minConf * 100 < r.conf.getD (-1)) ∧
    (minConf * 100 < r.conf.getD (-1) ↔ minConf < r.conf.getD (-1) / 100) ∧
    (r.conf = none → 0 ≤ minConf → tessCollect minConf ox oy fi [r] = []) ∧
    (easyCollect minConf ox oy fi [er] ≠ [] ↔ minConf ≤ er.conf) ∧
    (∀ o ∈ tessCollect minConf ox oy fi rows, minConf < o.confidence) ∧
    (∀ o ∈ easyCollect minConf ox oy fi erows, minConf ≤ o.confidence) := by
  have hdiv : ∀ cv : ℚ, (minConf * 100 < cv ↔ minConf < cv / 100) := by
    intro cv
    rw [lt_div_iff₀ (by norm_num : (0 : ℚ) < 100)]
  refine ⟨?_, hdiv _, ?_, ?_, ?_, ?_⟩
  · by_cases hcond : r.text ≠ "" ∧ pyStrip r.text ≠ "" ∧
        minConf * 100 < r.conf.getD (-1)
    · simp [tessCollect, hcond]
    · simp [tessCollect, hcond]
  · intro hnone hmc
    have : ¬ (minConf * 100 < r.conf.getD (-1)) := by
      rw [hnone]
      simp only [Option.getD_none]
      intro hlt
      have : (0 : ℚ) ≤ minConf * 100 := by positivity
      linarith
    simp [tessCollect, this]
  · by_cases hcond : minConf ≤ er.conf
    · simp [easyCollect, hcond]
    · simp [easyCollect, hcond]
  · intro o ho
    rw [tessCollect, List.mem_filterMap] at ho
    obtain ⟨r', hr', hsome⟩ := ho
    by_cases hcond : r'.text ≠ "" ∧ pyStrip r'.text ≠ "" ∧
        minConf * 100 < r'.conf.getD (-1)
    · rw [if_pos hcond] at hsome
      cases hsome
      exact (hdiv (r'.conf.getD (-1))).mp hcond.2.2
    · rw [if_neg hcond] at hsome
      cases hsome
  · intro o ho
    rw [easyCollect, List.mem_filterMap] at ho
    obtain ⟨r', hr', hsome⟩ := ho
    by_cases hcond : minConf ≤ r'.conf
    · rw [if_pos hcond] at hsome
      cases hsome
      exact hcond
    · rw [if_neg hcond] at hsome
      cases hsome

/-- Witness for `C7_confidence_filter`: a concrete row at the strict side of
the tesseract threshold is kept. -/
theorem C7_confidence_filter_witness :
    tessCollect 1 0 0 2 [⟨" A ", some 250, 0, 0, 10, 10⟩] ≠ [] ↔
      (TessRow.mk " A " (some 250) 0 0 10 10).text ≠ "" ∧
      pyStrip (TessRow.mk " A " (some 250) 0 0 10 10).text ≠ "" ∧
      (1 : ℚ) * 100 < (TessRow.mk " A " (some 250) 0 0 10 10).conf.getD (-1) :=
  (C7_confidence_filter 1 0 0 2 ⟨" A ", some 250, 0, 0, 10, 10⟩
    ⟨[(0, 0)], "B", 1⟩ [] []).1

/-- C8 (counterexample): an easyocr detection whose text is a single space
passes the confidence filter and is emitted as an observation whose text is
empty after stripping — the easyocr path never tests the trimmed text
(utils.py lines 226-244). -/
theorem C8_cex :
    (easyCollect (1 / 2) 0 0 1 [⟨[(0, 0), (1, 1)], " ", 9 / 10⟩]).map Obs.text
      = [""] := by
  decide

/-- C8 (amended): only the tesseract path filters on non-empty trimmed
text, so every observation it produces has a non-empty text equal to its
own stripped form; the easyocr path performs no such filtering and can emit
empty-text observations (see the counterexample). -/
theorem C8_tesseract_text (minConf : ℚ) (ox oy : ℤ) (fi : ℕ)
    (rows : List TessRow) (o : Obs)
    (ho : o ∈ tessCollect minConf ox oy fi rows) :
    o.text ≠ "" ∧ pyStrip o.text = o.text := by
  rw [tessCollect, List.mem_filterMap] at ho
  obtain ⟨r, hr, hsome⟩ := ho
  by_cases hcond : r.text ≠ "" ∧ pyStrip r.text ≠ "" ∧
      minConf * 100 < r.conf.getD (-1)
  · rw [if_pos hcond] at hsome
    cases hsome
    exact ⟨hcond.2.1, pyStrip_idem r.text⟩
  · rw [if_neg hcond] at hsome
    cases hsome

/-- Witness for `C8_tesseract_text` at a concrete kept row. -/
theorem C8_tesseract_text_witness :
    (Obs.mk "A" (80 / 100) 1 (some ⟨0, 0, 10, 10⟩)).text ≠ "" ∧
    pyStrip (Obs.mk "A" (80 / 100) 1 (some ⟨0, 0, 10, 10⟩)).text =
      (Obs.mk "A" (80 / 100) 1 (some ⟨0, 0, 10, 10⟩)).text :=
  C8_tesseract_text (1 / 2) 0 0 1 [⟨" A ", some 80, 0, 0, 10, 10⟩]
    ⟨"A", 80 / 100, 1, some ⟨0, 0, 10, 10⟩⟩ (by decide)

theorem pyMedian_eq_of_sorted (zs s : List ℤ) (hp : s.Perm zs)
    (hs : s.Sorted (· ≤ ·)) : pyMedian zs = s.getD (zs.length / 2) 0 := by
  rw [pyMedian]
  have heq : List.insertionSort (· ≤ ·) zs = s :=
    List.eq_of_perm_of_sorted ((List.perm_insertionSort _ zs).trans hp.symm)
      (List.sorted_insertionSort _ zs) hs
  rw [heq]

/-- C3 (counterexample): with two collected boxes and zero padding, the
computed region is the coordinate-wise *upper* median box (index
`len // 2 = 1` of the ascending sort), not the lower median the claim
specifies: the code yields `(20, 30, 60, 40)` where the claim's formula
yields `(10, 10, 50, 20)`. -/
theorem C3_cex :
    suggestedRegion 0 [⟨10, 10, 50, 20⟩, ⟨20, 30, 60, 40⟩]
        = some ⟨20, 30, 60, 40⟩ ∧
    specLowerRegion 0 [⟨10, 10, 50, 20⟩, ⟨20, 30, 60, 40⟩]
        = some ⟨10, 10, 50, 20⟩ ∧
    some (Box.mk 20 30 60 40) ≠ some (Box.mk 10 10 50 20) := by
  decide

/-- C3 (amended): for a nonempty box list the suggested region takes,
independently per coordinate, the element at index `len // 2` of the
ascending sort (the middle element for odd counts, the *upper* middle —
not the lower — for even counts), pads by `int(median * max(0, ratio))`
(truncation toward zero, which agrees with `floor` for the non-negative
values arising here), and clamps the corner at 0; an empty box list gives
no region; the spec's worked three-box example evaluates to
`(6, 8, 60, 24)`. -/
theorem C3_region (pad : ℚ) (bxs : List Box) (sx sy sw sh : List ℤ)
    (hxp : sx.Perm (bxs.map Box.x)) (hxs : sx.Sorted (· ≤ ·))
    (hyp : sy.Perm (bxs.map Box.y)) (hys : sy.Sorted (· ≤ ·))
    (hwp : sw.Perm (bxs.map Box.w)) (hws : sw.Sorted (· ≤ ·))
    (hhp : sh.Perm (bxs.map Box.h)) (hhs : sh.Sorted (· ≤ ·))
    (hne : bxs ≠ []) :
    suggestedRegion pad bxs =
      some ⟨max 0 (sx.getD (bxs.length / 2) 0 -
              pyInt ((sw.getD (bxs.length / 2) 0 : ℚ) * max 0 pad)),
            max 0 (sy.getD (bxs.length / 2) 0 -
              pyInt ((sh.getD (bxs.length / 2) 0 : ℚ) * max 0 pad)),
            sw.getD (bxs.length / 2) 0 +
              2 * pyInt ((sw.getD (bxs.length / 2) 0 : ℚ) * max 0 pad),
            sh.getD (bxs.length / 2) 0 +
              2 * pyInt ((sh.getD (bxs.length / 2) 0 : ℚ) * max 0 pad)⟩ ∧
    (∀ q : ℚ, 0 ≤ q → pyInt q = ⌊q⌋) ∧
    suggestedRegion pad [] = none ∧
    suggestedRegion (1 / 10)
        [⟨10, 10, 50, 20⟩, ⟨12, 11, 48, 22⟩, ⟨11, 9, 52, 19⟩]
      = some ⟨6, 8, 60, 24⟩ := by
  refine ⟨?_, ?_, rfl, by decide⟩
  · have hempty : bxs.isEmpty = false := by
      cases bxs with
      | nil => exact absurd rfl hne
      | cons b bs => rfl
    rw [suggestedRegion, hempty]
    simp only [Bool.false_eq_true, if_false]
    rw [pyMedian_eq_of_sorted _ sx hxp hxs, pyMedian_eq_of_sorted _ sy hyp hys,
      pyMedian_eq_of_sorted _ sw hwp hws, pyMedian_eq_of_sorted _ sh hhp hhs]
    simp only [List.length_map]
  · intro q hq
    rw [pyInt, if_pos hq]

/-- Witness for `C3_region`: the spec's worked example, with the sorted
coordinate lists supplied explicitly. -/
theorem C3_region_witness :
    suggestedRegion (1 / 10)
        [⟨10, 10, 50, 20⟩, ⟨12, 11, 48, 22⟩, ⟨11, 9, 52, 19⟩]
      = some ⟨6, 8, 60, 24⟩ :=
  (C3_region (1 / 10) [⟨10, 10, 50, 20⟩, ⟨12, 11, 48, 22⟩, ⟨11, 9, 52, 19⟩]
    [10, 11, 12] [9, 10, 11] [48, 50, 52] [19, 20, 22]
    (by decide) (by decide) (by decide) (by decide)
    (by decide) (by decide) (by decide) (by decide) (by decide)).2.2.2

theorem agg_frequency_spec (l : List Obs) (n : ℕ) (pad : ℚ) (c : Candidate)
    (hc : c ∈ aggregateCandidates l n pad) :
    c.frequency = (posFrames l c.text).length ∧ 2 ≤ c.frequency := by
  obtain ⟨t, st, hget, hmk⟩ := (mem_aggregate l n pad c).mp hc
  obtain ⟨e0, e1, e2, -, -, -, -, e7⟩ := mkCandidate_fields n pad t st c hmk
  constructor
  · rw [e2, e1, e0,
      (List.perm_insertionSort (· ≤ ·) (st.frameConf.map Prod.fst)).length_eq]
    exact (frameConf_keys_perm_posFrames l t st hget).length_eq
  · exact e7

/-- C2 (counterexample): with a zero-confidence observation of "A" in frame
1 and positive-confidence observations in frames 2 and 3, the emitted
candidate has frequency 2 although three distinct frames contain an
observation of "A" — frequency counts the frames with a recorded (positive
running-maximum) confidence, not the frames merely containing an
observation. -/
theorem C2_cex :
    (aggregateCandidates
        [⟨"A", 0, 1, none⟩, ⟨"A", 1, 2, none⟩, ⟨"A", 1, 3, none⟩] 5 0).map
      (fun c => (c.text, c.frequency)) = [("A", 2)] ∧
    ((([⟨"A", 0, 1, none⟩, ⟨"A", 1, 2, none⟩, ⟨"A", 1, 3, none⟩] :
          List Obs).filter
        (fun o => decide (normalize_text o.text = "A"))).map
      Obs.frame).dedup.length = 3 ∧
    (2 : ℕ) ≠ 3 := by
  decide

/-- C2 (amended): every emitted candidate's `frequency` equals the number
of distinct frame keys of its `TextStatistics` entry — that is, the number
of distinct frames holding an observation of that text with confidence
strictly above 0 (a frame all of whose observations have confidence ≤ 0
never becomes a key) — the value is always ≥ 2, and any text whose
distinct positive-frame count is below 2 never appears in the output,
regardless of confidence. -/
theorem C2_frequency (l : List Obs) (n : ℕ) (pad : ℚ) (c : Candidate)
    (hc : c ∈ aggregateCandidates l n pad) :
    c.frequency = (posFrames l c.text).length ∧
    2 ≤ c.frequency ∧
    ∀ t : String, (posFrames l t).length < 2 →
      ∀ c' ∈ aggregateCandidates l n pad, c'.text ≠ t := by
  obtain ⟨h1, h2⟩ := agg_frequency_spec l n pad c hc
  refine ⟨h1, h2, ?_⟩
  intro t hlt c' hc' hct
  obtain ⟨h1', h2'⟩ := agg_frequency_spec l n pad c' hc'
  rw [hct] at h1'
  omega

/-- Witness for `C2_frequency` on a concrete two-frame group. -/
theorem C2_frequency_witness :
    (Candidate.mk "A" 2 1 [1, 2] false 2 none).frequency =
      (posFrames [⟨"A", 1, 1, none⟩, ⟨"A", 1, 2, none⟩]
        (Candidate.mk "A" 2 1 [1, 2] false 2 none).text).length :=
  (C2_frequency [⟨"A", 1, 1, none⟩, ⟨"A", 1, 2, none⟩] 5 0
    ⟨"A", 2, 1, [1, 2], false, 2, none⟩ (by decide)).1

/-- C1 (counterexample): for text "A", frame 1 receives confidences 9/10
(box (1,1,1,1)) then 4/10 (box (2,2,2,2)): the recorded confidence is the
maximum 9/10, but the stored frame-1 box is (2,2,2,2) — the box of the
*losing* later observation, not of the winning confidence (the box write at
utils.py line 274-275 is not guarded by the confidence comparison).  Frame
2 receives two observations of confidence 0 and acquires *no* confidence
key at all, contributing 0 — not 1 — to frequency. -/
theorem C1_cex :
    text_stats
        [⟨"A", 9 / 10, 1, some ⟨1, 1, 1, 1⟩⟩, ⟨"A", 4 / 10, 1, some ⟨2, 2, 2, 2⟩⟩,
         ⟨"A", 0, 2, some ⟨3, 3, 3, 3⟩⟩, ⟨"A", 0, 2, some ⟨4, 4, 4, 4⟩⟩] =
      [("A", ⟨4, [(1, 9 / 10)], [(1, ⟨2, 2, 2, 2⟩), (2, ⟨4, 4, 4, 4⟩)]⟩)] ∧
    Box.mk 2 2 2 2 ≠ Box.mk 1 1 1 1 := by
  decide

/-- C1 (amended): for a text group `t` and frame `f` with at least two
observations: if some observation of `(t, f)` has confidence strictly above
0, the recorded per-frame confidence is their maximum (an attained upper
bound) and the frame occurs exactly once among the entry's frame keys,
contributing exactly 1 to frequency; if every observation of `(t, f)` has
confidence ≤ 0, no confidence is recorded for that frame.  The stored
per-frame bounding box is the box of the *last* observation of `(t, f)` in
input order whose box is not `None`, irrespective of confidences. -/
theorem C1_dedup (l : List Obs) (t : String) (f : ℕ) (ht : t ≠ "")
    (_htwo : 2 ≤ (obsAt l t f).length) :
    (∀ st, alGet (text_stats l) t = some st →
      alGet st.frameBbox f = ((obsAt l t f).filterMap Obs.bbox).getLast?) ∧
    ((∃ o ∈ obsAt l t f, 0 < o.confidence) →
      ∃ st, alGet (text_stats l) t = some st ∧
        alGet st.frameConf f =
          some (posMax ((obsAt l t f).map Obs.confidence)) ∧
        (∀ o ∈ obsAt l t f,
          o.confidence ≤ posMax ((obsAt l t f).map Obs.confidence)) ∧
        posMax ((obsAt l t f).map Obs.confidence) ∈
          (obsAt l t f).map Obs.confidence ∧
        (st.frameConf.map Prod.fst).count f = 1) ∧
    ((∀ o ∈ obsAt l t f, o.confidence ≤ 0) →
      ∀ st, alGet (text_stats l) t = some st →
        alGet st.frameConf f = none) := by
  refine ⟨?_, ?_, ?_⟩
  · intro st hget
    obtain ⟨-, -, -, e4⟩ := text_stats_entry l t st hget
    exact e4 f
  · rintro ⟨o, ho, hoc⟩
    have homem : o ∈ l ∧ normalize_text o.text = t := by
      rw [obsAt, List.mem_filter] at ho
      simp only [Bool.and_eq_true, decide_eq_true_eq] at ho
      exact ⟨ho.1, ho.2.1⟩
    have hkeys : t ∈ (text_stats l).map Prod.fst :=
      (mem_text_stats_keys l t).mpr ⟨ht, o, homem.1, homem.2⟩
    obtain ⟨st, hget⟩ := (alGet_isSome_iff _ _).mpr hkeys
    obtain ⟨-, e2, e3, -⟩ := text_stats_entry l t st hget
    have hmpos : 0 < posMax ((obsAt l t f).map Obs.confidence) :=
      (posMax_pos_iff _).mpr
        ⟨o.confidence, List.mem_map_of_mem Obs.confidence ho, hoc⟩
    refine ⟨st, hget, ?_, ?_, ?_, ?_⟩
    · rw [e3 f, recConf, if_pos hmpos]
    · intro o' ho'
      exact mem_le_posMax _ _ (List.mem_map_of_mem Obs.confidence ho')
    · exact posMax_mem_of_pos _ hmpos
    · exact List.count_eq_one_of_mem e2
        ((frameConf_keys_iff l t st hget f).mpr hmpos)
  · intro hall st hget
    obtain ⟨-, -, e3, -⟩ := text_stats_entry l t st hget
    rw [e3 f, recConf, if_neg]
    intro hmpos
    obtain ⟨c, hc, hcpos⟩ := (posMax_pos_iff _).mp hmpos
    rw [List.mem_map] at hc
    obtain ⟨o, ho, rfl⟩ := hc
    exact absurd hcpos (not_lt.mpr (hall o ho))

/-- Witness for `C1_dedup`: two same-frame observations of "A"; the stored
frame-1 box is the later observation's box. -/
theorem C1_dedup_witness :
    alGet (Stats.mk 2 [(1, (1 : ℚ))] [(1, Box.mk 2 2 2 2)]).frameBbox 1 =
      ((obsAt [⟨"A", 1, 1, some ⟨1, 1, 1, 1⟩⟩, ⟨"A", 1, 1, some ⟨2, 2, 2, 2⟩⟩]
          "A" 1).filterMap Obs.bbox).getLast? :=
  (C1_dedup [⟨"A", 1, 1, some ⟨1, 1, 1, 1⟩⟩, ⟨"A", 1, 1, some ⟨2, 2, 2, 2⟩⟩]
    "A" 1 (by decide) (by decide)).1 ⟨2, [(1, 1)], [(1, ⟨2, 2, 2, 2⟩)]⟩
    (by decide)

theorem al_values_sum (al : List (ℕ × ℚ)) (h : (al.map Prod.fst).Nodup) :
    (al.map Prod.snd).sum =
      ∑ f ∈ (al.map Prod.fst).toFinset, (alGet al f).getD 0 := by
  induction al with
  | nil => simp
  | cons p rest ih =>
    obtain ⟨k, v⟩ := p
    simp only [List.map_cons, List.nodup_cons] at h
    obtain ⟨hk, hrest⟩ := h
    have hknot : k ∉ (rest.map Prod.fst).toFinset := by
      rw [List.mem_toFinset]
      exact hk
    rw [List.map_cons, List.sum_cons, List.map_cons, List.toFinset_cons,
      Finset.sum_insert hknot, ih hrest]
    have hco : ∀ f ∈ (rest.map Prod.fst).toFinset,
        (alGet ((k, v) :: rest) f).getD 0 = (alGet rest f).getD 0 := by
      intro f hf
      have hfk : f ≠ k := by
        rw [List.mem_toFinset] at hf
        intro hfe
        exact hk (hfe ▸ hf)
      rw [alGet, if_neg hfk]
    rw [Finset.sum_congr rfl hco]
    have hself : (alGet ((k, v) :: rest) k).getD 0 = v := by
      simp [alGet]
    rw [hself]

theorem mkCandidate_eq_none_iff (n : ℕ) (pad : ℚ) (t : String) (info : Stats) :
    mkCandidate n pad t info = none ↔
      (List.insertionSort (· ≤ ·) (info.frameConf.map Prod.fst)).length < 2 := by
  rw [mkCandidate]
  simp only
  split <;> simp_all

/-- The order-independent view of a candidate: every field except the
suggested region (which depends on input order through the last-written
per-frame box). -/
def candView (c : Candidate) : String × ℕ × ℚ × List ℕ × Bool × ℕ :=
  (c.text, c.frequency, c.confidence, c.frames, c.appears_consistently,
    c.occurrences)

theorem agg_view_mono (l1 l2 : List Obs) (n : ℕ) (pad : ℚ) (hp : l1.Perm l2)
    (c1 : Candidate) (hc1 : c1 ∈ aggregateCandidates l1 n pad) :
    ∃ c2 ∈ aggregateCandidates l2 n pad, candView c2 = candView c1 := by
  obtain ⟨t, st1, hget1, hmk1⟩ := (mem_aggregate l1 n pad c1).mp hc1
  obtain ⟨e0, e1, e2, e3, e5, e6, -, e7⟩ := mkCandidate_fields n pad t st1 c1 hmk1
  -- the key exists on the other side as well
  have hkeys1 : t ∈ (text_stats l1).map Prod.fst :=
    (alGet_isSome_iff _ _).mp ⟨st1, hget1⟩
  obtain ⟨ht, o, ho, hno⟩ := (mem_text_stats_keys l1 t).mp hkeys1
  have hkeys2 : t ∈ (text_stats l2).map Prod.fst :=
    (mem_text_stats_keys l2 t).mpr ⟨ht, o, hp.mem_iff.mp ho, hno⟩
  obtain ⟨st2, hget2⟩ := (alGet_isSome_iff _ _).mpr hkeys2
  obtain ⟨a1, a2, a3, -⟩ := text_stats_entry l1 t st1 hget1
  obtain ⟨b1, b2, b3, -⟩ := text_stats_entry l2 t st2 hget2
  -- per-frame key multisets agree
  have hobs : ∀ f, (obsAt l1 t f).Perm (obsAt l2 t f) := by
    intro f
    exact hp.filter _
  have hrc : ∀ f, recConf l1 t f = recConf l2 t f := by
    intro f
    rw [recConf, recConf]
    rw [posMax_perm _ _ (List.Perm.map Obs.confidence (hobs f))]
  have hkeysperm : (st1.frameConf.map Prod.fst).Perm
      (st2.frameConf.map Prod.fst) := by
    rw [List.perm_ext_iff_of_nodup a2 b2]
    intro f
    rw [frameConf_keys_iff l1 t st1 hget1 f, frameConf_keys_iff l2 t st2 hget2 f]
    rw [posMax_perm _ _ (List.Perm.map Obs.confidence (hobs f))]
  -- sorted frame lists agree on the nose
  have hframes : List.insertionSort (· ≤ ·) (st2.frameConf.map Prod.fst) =
      List.insertionSort (· ≤ ·) (st1.frameConf.map Prod.fst) := by
    refine List.eq_of_perm_of_sorted ?_ (List.sorted_insertionSort _ _)
      (List.sorted_insertionSort _ _)
    exact (List.perm_insertionSort _ _).trans
      (hkeysperm.symm.trans (List.perm_insertionSort _ _).symm)
  -- confidence sums agree
  have hsum : (st1.frameConf.map Prod.snd).sum =
      (st2.frameConf.map Prod.snd).sum := by
    rw [al_values_sum _ a2, al_values_sum _ b2]
    have hfs : (st1.frameConf.map Prod.fst).toFinset =
        (st2.frameConf.map Prod.fst).toFinset := by
      ext f
      rw [List.mem_toFinset, List.mem_toFinset, hkeysperm.mem_iff]
    rw [hfs]
    refine Finset.sum_congr rfl ?_
    intro f _
    rw [a3 f, b3 f, hrc f]
  -- occurrence counts agree
  have hocc : st1.occurrences = st2.occurrences := by
    rw [a1, b1]
    exact (hp.filter _).length_eq
  -- the other side builds a candidate as well
  rcases hmk2 : mkCandidate n pad t st2 with _ | c2
  · rw [mkCandidate_eq_none_iff, hframes] at hmk2
    rw [e1] at e2
    rw [e2] at e7
    omega
  · obtain ⟨f0, f1, f2, f3, f5, f6, -, -⟩ := mkCandidate_fields n pad t st2 c2 hmk2
    refine ⟨c2, (mem_aggregate l2 n pad c2).mpr ⟨t, st2, hget2, hmk2⟩, ?_⟩
    have htext : c2.text = c1.text := by rw [f0, e0]
    have hfr : c2.frames = c1.frames := by rw [f1, e1, hframes]
    have hfq : c2.frequency = c1.frequency := by rw [f2, e2, hfr]
    have hcf : c2.confidence = c1.confidence := by rw [f3, e3, hsum, hfq]
    have hco : c2.appears_consistently = c1.appears_consistently := by
      rw [f5, e5, hfq]
    have hoc : c2.occurrences = c1.occurrences := by rw [f6, e6, hocc]
    rw [candView, candView, htext, hfr, hfq, hcf, hco, hoc]

/-- C5 (counterexample): a permutation of the observation list changes both
the suggested region of a candidate (the per-frame stored box is the last
one written, so swapping two same-frame observations of "A" changes the box
fed to the median) and the ranked output order (candidates "A" and "B" tie
on the sort key, and the stable sort keeps dictionary insertion order,
which is first-occurrence order). -/
theorem C5_cex :
    ([⟨"A", 1, 1, some ⟨0, 0, 10, 10⟩⟩, ⟨"A", 1, 1, some ⟨100, 100, 10, 10⟩⟩,
      ⟨"A", 1, 2, some ⟨0, 0, 10, 10⟩⟩, ⟨"B", 1, 1, some ⟨5, 5, 5, 5⟩⟩,
      ⟨"B", 1, 2, some ⟨5, 5, 5, 5⟩⟩] : List Obs).Perm
      [⟨"B", 1, 1, some ⟨5, 5, 5, 5⟩⟩, ⟨"B", 1, 2, some ⟨5, 5, 5, 5⟩⟩,
       ⟨"A", 1, 1, some ⟨100, 100, 10, 10⟩⟩, ⟨"A", 1, 1, some ⟨0, 0, 10, 10⟩⟩,
       ⟨"A", 1, 2, some ⟨0, 0, 10, 10⟩⟩] ∧
    (aggregateCandidates
        [⟨"A", 1, 1, some ⟨0, 0, 10, 10⟩⟩, ⟨"A", 1, 1, some ⟨100, 100, 10, 10⟩⟩,
         ⟨"A", 1, 2, some ⟨0, 0, 10, 10⟩⟩, ⟨"B", 1, 1, some ⟨5, 5, 5, 5⟩⟩,
         ⟨"B", 1, 2, some ⟨5, 5, 5, 5⟩⟩] 5 0).map Candidate.text = ["A", "B"] ∧
    (aggregateCandidates
        [⟨"B", 1, 1, some ⟨5, 5, 5, 5⟩⟩, ⟨"B", 1, 2, some ⟨5, 5, 5, 5⟩⟩,
         ⟨"A", 1, 1, some ⟨100, 100, 10, 10⟩⟩, ⟨"A", 1, 1, some ⟨0, 0, 10, 10⟩⟩,
         ⟨"A", 1, 2, some ⟨0, 0, 10, 10⟩⟩] 5 0).map Candidate.text = ["B", "A"] ∧
    ((aggregateCandidates
        [⟨"A", 1, 1, some ⟨0, 0, 10, 10⟩⟩, ⟨"A", 1, 1, some ⟨100, 100, 10, 10⟩⟩,
         ⟨"A", 1, 2, some ⟨0, 0, 10, 10⟩⟩, ⟨"B", 1, 1, some ⟨5, 5, 5, 5⟩⟩,
         ⟨"B", 1, 2, some ⟨5, 5, 5, 5⟩⟩] 5 0).filter
      (fun c => decide (c.text = "A"))).map Candidate.region =
        [some ⟨100, 100, 10, 10⟩] ∧
    ((aggregateCandidates
        [⟨"B", 1, 1, some ⟨5, 5, 5, 5⟩⟩, ⟨"B", 1, 2, some ⟨5, 5, 5, 5⟩⟩,
         ⟨"A", 1, 1, some ⟨100, 100, 10, 10⟩⟩, ⟨"A", 1, 1, some ⟨0, 0, 10, 10⟩⟩,
         ⟨"A", 1, 2, some ⟨0, 0, 10, 10⟩⟩] 5 0).filter
      (fun c => decide (c.text = "A"))).map Candidate.region =
        [some ⟨0, 0, 10, 10⟩] ∧
    some (Box.mk 100 100 10 10) ≠ some (Box.mk 0 0 10 10) := by
  decide

/-- C5 (amended): permuting the observation list preserves
`watermark_found` and, for each emitted candidate, there is a candidate for
the permuted input with the identical text, frequency, confidence, sorted
frame list, consistency flag and occurrence count (and conversely).  The
suggested region and the ranked order of tied candidates are *not*
preserved in general — see the counterexample — because the stored
per-frame box is the last one written and the stable sort keeps
first-occurrence order among equal keys. -/
theorem C5_permutation (l1 l2 : List Obs) (n fa : ℕ) (pad : ℚ)
    (hp : l1.Perm l2) :
    (detectAggregate l1 n pad fa).watermark_found =
      (detectAggregate l2 n pad fa).watermark_found ∧
    (∀ c1 ∈ aggregateCandidates l1 n pad,
      ∃ c2 ∈ aggregateCandidates l2 n pad, candView c2 = candView c1) ∧
    (∀ c2 ∈ aggregateCandidates l2 n pad,
      ∃ c1 ∈ aggregateCandidates l1 n pad, candView c1 = candView c2) := by
  refine ⟨?_, ?_, ?_⟩
  · by_cases hl1 : l1 = []
    · subst hl1
      have hl2 : l2 = [] := hp.symm.eq_nil
      rw [hl2]
    · have hl2 : l2 ≠ [] := by
        intro h
        exact hl1 ((h ▸ hp).eq_nil)
      rw [detectAggregate, detectAggregate, if_neg hl1, if_neg hl2]
      simp only
      rw [decide_eq_decide]
      constructor
      · intro h1
        obtain ⟨c1, hc1⟩ := List.exists_mem_of_ne_nil _
          (List.length_pos.mp h1)
        obtain ⟨c2, hc2, -⟩ := agg_view_mono l1 l2 n pad hp c1 hc1
        exact List.length_pos.mpr (List.ne_nil_of_mem hc2)
      · intro h2
        obtain ⟨c2, hc2⟩ := List.exists_mem_of_ne_nil _
          (List.length_pos.mp h2)
        obtain ⟨c1, hc1, -⟩ := agg_view_mono l2 l1 n pad hp.symm c2 hc2
        exact List.length_pos.mpr (List.ne_nil_of_mem hc1)
  · intro c1 hc1
    exact agg_view_mono l1 l2 n pad hp c1 hc1
  · intro c2 hc2
    exact agg_view_mono l2 l1 n pad hp.symm c2 hc2

/-- Witness for `C5_permutation`: a three-element permutation preserves
`watermark_found`. -/
theorem C5_permutation_witness :
    (detectAggregate
        [⟨"A", 1, 1, none⟩, ⟨"A", 1, 2, none⟩, ⟨"B", 1, 1, none⟩]
        5 0 5).watermark_found =
      (detectAggregate
        [⟨"B", 1, 1, none⟩, ⟨"A", 1, 2, none⟩, ⟨"A", 1, 1, none⟩]
        5 0 5).watermark_found :=
  (C5_permutation
    [⟨"A", 1, 1, none⟩, ⟨"A", 1, 2, none⟩, ⟨"B", 1, 1, none⟩]
    [⟨"B", 1, 1, none⟩, ⟨"A", 1, 2, none⟩, ⟨"A", 1, 1, none⟩]
    5 5 0 (by decide)).1
